import Mathlib

/-!
Verification of the DatingSimulation matching engine.

Shallow embedding of `src/main.rs`: `Individual`, `Gender`, the scoring
function, the per-round greedy matching loop (`match_making`), and the
statistics reporter (`display_statistics`).  Rust `f32`/`f64` values are
modelled as rationals (`ℚ`); the one place where IEEE special values matter
(the unmatched-percentage division) is modelled with an explicit `F64` type
carrying `nan`/`inf`.  Randomness (`thread_rng`, `Uuid::new_v4`) is modelled
as explicit streams threaded through `Individual.new`, so that fail-fast
behaviour (no draws consumed on the error path) is observable.  Rust `panic!`
and `Err` are both modelled as `Except.error`.
-/

namespace DatingSim

inductive Gender where
  | Male : Gender
  | Female : Gender
deriving DecidableEq

structure Individual where
  identity : String
  gender : Gender
  preference_weights : List ℚ
  ratings : List ℚ
  blacklist : List String
  candidate : Option String
  candidate_score : Option ℚ
deriving DecidableEq

instance : Inhabited Individual :=
  ⟨{ identity := "", gender := Gender.Male, preference_weights := [], ratings := [],
     blacklist := [], candidate := none, candidate_score := none }⟩

/-- Model of the random sources consumed by `Individual::new`: a stream of
float draws (`rand::thread_rng`), a stream of gender draws, and a stream of
fresh identity tokens (`Uuid::new_v4`). -/
structure Rng where
  floats : List ℚ
  genders : List Gender
  ids : List String
deriving DecidableEq

/-- The tail of `Individual::new` after the weights are settled: draw a
gender, a fresh identity, and `D` ratings, and build the individual with an
empty blacklist and no candidate (lines 80-99 of `main.rs`). -/
def Individual.finishNew (weights : List ℚ) (D : ℕ) (rng : Rng) :
    Except String Individual × Rng :=
  (Except.ok
    { identity := rng.ids.headD ""
      gender := rng.genders.headD Gender.Male
      preference_weights := weights
      ratings := rng.floats.take D
      blacklist := []
      candidate := none
      candidate_score := none },
   { floats := rng.floats.drop D, genders := rng.genders.tail, ids := rng.ids.tail })

/-- `Individual::new` (lines 52-100 of `main.rs`).  If weights are supplied
with the wrong length the Rust code panics before generating anything; this
is modelled as `Except.error` with the `Rng` returned untouched.  The Rust
`preference_complexity : i8` (positive per the spec, §6) is modelled as `ℕ`. -/
def Individual.new (preference_complexity : ℕ)
    (specified_predefined_weights : Option (List ℚ)) (rng : Rng) :
    Except String Individual × Rng :=
  match specified_predefined_weights with
  | some w =>
    if w.length ≠ preference_complexity then
      (Except.error "Wrong size of specified predefined weights!", rng)
    else
      Individual.finishNew w preference_complexity rng
  | none =>
      Individual.finishNew (rng.floats.take preference_complexity) preference_complexity
        { rng with floats := rng.floats.drop preference_complexity }

/-- `Individual::score` (lines 103-123 of `main.rs`): dimension check, then
the dot product of the evaluator's weights with the target's ratings. -/
def Individual.score (self matcher : Individual) : Except String ℚ :=
  if self.preference_weights.length ≠ matcher.ratings.length then
    Except.error "Twos predefined weights and ratings do not match."
  else
    Except.ok (((self.preference_weights.zip matcher.ratings).map
      (fun p => p.1 * p.2)).sum)

structure Sample where
  male_population : List Individual
  female_population : List Individual
deriving DecidableEq

/-- `Sample::liked` (lines 213-231 of `main.rs`): set both parties'
`candidate`/`candidate_score` to each other / the given score.  The Rust
function mutates through `&mut`; here it returns the updated pair
(female first, male second, matching the parameter order). -/
def Sample.liked (female_individual male_individual : Individual) (score : ℚ) :
    Individual × Individual :=
  ({ female_individual with
      candidate := some male_individual.identity
      candidate_score := some score },
   { male_individual with
      candidate := some female_individual.identity
      candidate_score := some score })

/-- The inner female loop of `Sample::match_making` (lines 254-281 of
`main.rs`) for one male individual: skip blacklisted females, score the
first non-skipped one, and accept (break) or reject (push to the male's
blacklist and continue).  Returns the updated male and female list. -/
def proposeScan : Individual → List Individual → Except String (Individual × List Individual)
  | male_individual, [] => Except.ok (male_individual, [])
  | male_individual, female_individual :: rest =>
    if male_individual.blacklist.contains female_individual.identity then
      match proposeScan male_individual rest with
      | Except.error e => Except.error e
      | Except.ok p => Except.ok (p.1, female_individual :: p.2)
    else
      match female_individual.score male_individual with
      | Except.error e => Except.error e
      | Except.ok score =>
        match female_individual.candidate_score with
        | some cs =>
          if score < cs then
            match proposeScan
                { male_individual with
                    blacklist := male_individual.blacklist ++ [female_individual.identity] }
                rest with
            | Except.error e => Except.error e
            | Except.ok p => Except.ok (p.1, female_individual :: p.2)
          else
            Except.ok ((Sample.liked female_individual male_individual score).2,
              (Sample.liked female_individual male_individual score).1 :: rest)
        | none =>
          Except.ok ((Sample.liked female_individual male_individual score).2,
            (Sample.liked female_individual male_individual score).1 :: rest)

/-- The outer male loop of `Sample::match_making` (line 253 of `main.rs`):
process each male in storage order against the current female population. -/
def matchScan : List Individual → List Individual →
    Except String (List Individual × List Individual)
  | [], fs => Except.ok ([], fs)
  | m :: rest, fs =>
    match proposeScan m fs with
    | Except.error e => Except.error e
    | Except.ok p =>
      match matchScan rest p.2 with
      | Except.error e => Except.error e
      | Except.ok q => Except.ok (p.1 :: q.1, q.2)

/-- `Sample::match_making` (lines 233-295 of `main.rs`), with the progress
bar and console output (excluded collaborators) dropped. -/
def Sample.match_making (s : Sample) : Except String Sample :=
  match matchScan s.male_population s.female_population with
  | Except.error e => Except.error e
  | Except.ok p => Except.ok { male_population := p.1, female_population := p.2 }

/-- The driver loop of `main` (lines 406-421 of `main.rs`): run
`match_making` the given number of rounds on the same population. -/
def runRounds : ℕ → Sample → Except String Sample
  | 0, s => Except.ok s
  | n + 1, s =>
    match s.match_making with
    | Except.error e => Except.error e
    | Except.ok t => runRounds n t

/-- Model of the `f64` values produced by `display_statistics`' percentage
arithmetic: a finite rational, infinity, or IEEE NaN. -/
inductive F64 where
  | nan : F64
  | inf : F64
  | num : ℚ → F64
deriving DecidableEq

/-- IEEE `f64` division on the (nonnegative, exactly representable) counts
involved: `0.0 / 0.0 = NaN`, `x / 0.0 = inf` for `x ≠ 0`. -/
def f64Div (a b : ℚ) : F64 :=
  if b = 0 then (if a = 0 then F64.nan else F64.inf) else F64.num (a / b)

def F64.mulNum : F64 → ℚ → F64
  | F64.nan, _ => F64.nan
  | F64.inf, _ => F64.inf
  | F64.num v, q => F64.num (v * q)

/-- The inner female loop of `display_statistics` (lines 347-356 of
`main.rs`): the first female whose `candidate` equals this male's identity. -/
def firstPointing (m : Individual) (fs : List Individual) : Option Individual :=
  fs.find? (fun f => f.candidate == some m.identity)

/-- The numbers computed by `Sample::display_statistics`. -/
structure Stats where
  no_match_males : ℕ
  no_match_females : ℕ
  matched_males : ℕ
  matched_females : ℕ
  unmatched_percentage : F64
deriving DecidableEq

/-- `Sample::display_statistics` (lines 335-391 of `main.rs`) as a pure
function from the population to the reported numbers.  For each male, the
first female whose `candidate` points at him is recorded as matched (and he
with her); a female counts as unmatched if her `candidate` is `None` or she
was not recorded.  The percentage is the unguarded `f64` division. -/
def Sample.display_statistics (s : Sample) : Stats :=
  let matched_female_individuals :=
    s.male_population.filterMap (fun m => firstPointing m s.female_population)
  let matched_male_individuals :=
    s.male_population.filter (fun m => (firstPointing m s.female_population).isSome)
  let no_match_male_individuals :=
    s.male_population.filter (fun m => !(firstPointing m s.female_population).isSome)
  let no_match_female_individuals :=
    s.female_population.filter
      (fun f => f.candidate.isNone || !(matched_female_individuals.contains f))
  let total_population_size := s.male_population.length + s.female_population.length
  let total_unmatched_individuals :=
    no_match_male_individuals.length + no_match_female_individuals.length
  { no_match_males := no_match_male_individuals.length
    no_match_females := no_match_female_individuals.length
    matched_males := matched_male_individuals.length
    matched_females := matched_female_individuals.length
    unmatched_percentage :=
      (f64Div (total_unmatched_individuals : ℚ) (total_population_size : ℚ)).mulNum 100 }

/-! ### Derived predicates used in the specifications -/

/-- The `candidate`/`candidate_score` lockstep invariant of §3 of the spec. -/
def lockstep (i : Individual) : Prop := i.candidate.isSome = i.candidate_score.isSome

/-- The dot product computed by `Individual.score` on matching lengths. -/
def dot (a b : List ℚ) : ℚ := ((a.zip b).map (fun p => p.1 * p.2)).sum

/-- A female after `Sample.liked` with male identity `mid` and score `sc`. -/
def likedFem (mid : String) (sc : ℚ) (f : Individual) : Individual :=
  { f with candidate := some mid, candidate_score := some sc }

/-- How one male's scan can change one female: untouched, or accepted via
`Sample.liked` (the stored score is then exactly the recomputed dot
product of her weights with his ratings). -/
def femRel (mid : String) (mrat : List ℚ) (f f' : Individual) : Prop :=
  f' = f ∨ f' = likedFem mid (dot f.preference_weights mrat) f

/-- Immutable fields: identity, gender, weights and ratings agree. -/
def indFrame (a b : Individual) : Prop :=
  b.identity = a.identity ∧ b.gender = a.gender ∧
  b.preference_weights = a.preference_weights ∧ b.ratings = a.ratings

/-- How matching rounds can change a male: immutable fields kept, blacklist
only appended to, candidate fields either untouched or both set. -/
def mStar (m m' : Individual) : Prop :=
  indFrame m m' ∧ (∃ extra, m'.blacklist = m.blacklist ++ extra) ∧
  ((m'.candidate = m.candidate ∧ m'.candidate_score = m.candidate_score) ∨
   (∃ x q, m'.candidate = some x ∧ m'.candidate_score = some q))

/-- How matching rounds can change a female: immutable fields kept, blacklist
unchanged, candidate fields either untouched or both set. -/
def fStar (f f' : Individual) : Prop :=
  indFrame f f' ∧ f'.blacklist = f.blacklist ∧
  ((f'.candidate = f.candidate ∧ f'.candidate_score = f.candidate_score) ∨
   (∃ x q, f'.candidate = some x ∧ f'.candidate_score = some q))

/-- Score consistency: whenever a female's `candidate` names a male listed
in the directory `dir` of (identity, ratings) pairs, her stored
`candidate_score` is exactly the score she would recompute against him. -/
def FInv (dir : List (String × List ℚ)) (f : Individual) : Prop :=
  ∀ p ∈ dir, f.candidate = some p.1 → f.candidate_score = some (dot f.preference_weights p.2)

/-- A female whose identity a male has blacklisted does not hold that male
as her candidate. -/
def NPB (m f : Individual) : Prop :=
  f.identity ∈ m.blacklist → f.candidate ≠ some m.identity

/-- The directory of immutable (identity, ratings) data of a male list. -/
def dirOf (ms : List Individual) : List (String × List ℚ) :=
  ms.map (fun m => (m.identity, m.ratings))

/-- Well-formedness maintained by matching rounds: unique identities,
score consistency, and no blacklisted pair still pointed at. -/
def WfS (s : Sample) : Prop :=
  (s.male_population.map Individual.identity).Nodup ∧
  (s.female_population.map Individual.identity).Nodup ∧
  (∀ f ∈ s.female_population, FInv (dirOf s.male_population) f) ∧
  (∀ m ∈ s.male_population, ∀ f ∈ s.female_population, NPB m f)

/-- A freshly built population (every individual as produced by
`Individual.new`): unique identities, empty blacklists, no candidates. -/
def FreshS (s : Sample) : Prop :=
  (s.male_population.map Individual.identity).Nodup ∧
  (s.female_population.map Individual.identity).Nodup ∧
  (∀ i ∈ s.male_population ++ s.female_population,
    i.blacklist = [] ∧ i.candidate = none ∧ i.candidate_score = none)

/-! ### Concrete populations used for witnesses and counterexamples -/

/-- A male with preference complexity 1: weights `[1]`, the given ratings. -/
def mkMale (id : String) (r : List ℚ) : Individual :=
  { identity := id, gender := Gender.Male, preference_weights := [1], ratings := r,
    blacklist := [], candidate := none, candidate_score := none }

/-- A female with preference complexity 1: the given weights, ratings `[1]`. -/
def mkFemale (id : String) (w : List ℚ) : Individual :=
  { identity := id, gender := Gender.Female, preference_weights := w, ratings := [1],
    blacklist := [], candidate := none, candidate_score := none }

/-- Two males, one female; the first male scores 5 with her, the second 3,
so in round one she accepts the first and the second blacklists her. -/
def exBlacklistSample : Sample :=
  ⟨[mkMale "m1" [5], mkMale "m2" [3]], [mkFemale "f" [1]]⟩

/-- The state of `exBlacklistSample` after one round. -/
def exBlacklistAfter1 : Sample :=
  ⟨[{ mkMale "m1" [5] with candidate := some "f", candidate_score := some 5 },
    { mkMale "m2" [3] with blacklist := ["f"] }],
   [{ mkFemale "f" [1] with candidate := some "m1", candidate_score := some 5 }]⟩

/-- Two males, one female; the second male outscores the first, displacing
him in round one and leaving his `candidate` stale. -/
def exDisplaceSample : Sample :=
  ⟨[mkMale "m1" [3], mkMale "m2" [5]], [mkFemale "f" [1]]⟩

/-- The state of `exDisplaceSample` after one round: the first male's
`candidate` stale-points at the female, who now holds the second male. -/
def exDisplaceAfter1 : Sample :=
  ⟨[{ mkMale "m1" [3] with candidate := some "f", candidate_score := some 3 },
    { mkMale "m2" [5] with candidate := some "f", candidate_score := some 5 }],
   [{ mkFemale "f" [1] with candidate := some "m2", candidate_score := some 5 }]⟩

/-- Two males and two females: the first male accepts the first female
(score 8); the second male is then rejected by her (score 6 < 8), pushes her
to his blacklist and scans on to the second female, whose weight vector has
the mismatched length 2 — so the round errors at the second male's second
scored pair. -/
def exMismatch2Sample : Sample :=
  ⟨[mkMale "ma" [4], mkMale "mb" [3]], [mkFemale "fok" [2], mkFemale "fbad" [1, 2]]⟩

/-- The first male of `exMismatch2Sample` after accepting the first female. -/
def exMaleAMatched : Individual :=
  { mkMale "ma" [4] with candidate := some "fok", candidate_score := some 8 }

/-- The first female of `exMismatch2Sample` after accepting the first male. -/
def exFemOkMatched : Individual :=
  { mkFemale "fok" [2] with candidate := some "ma", candidate_score := some 8 }

/-- A male who has already blacklisted the identity "fok", used to exercise
the skip step of the error-propagation theorem. -/
def exSkipMaleB : Individual :=
  { mkMale "mb2" [7] with blacklist := ["fok"] }

/-- The individual produced by `Individual.new 1 none` from the random
streams `⟨[1, 2], [Gender.Female], ["w1"]⟩`. -/
def exNewInd : Individual :=
  { identity := "w1"
    gender := Gender.Female
    preference_weights := [1]
    ratings := [2]
    blacklist := []
    candidate := none
    candidate_score := none }

/-! ### Frame lemmas for the matching loops -/

theorem indFrame_refl (a : Individual) : indFrame a a := ⟨rfl, rfl, rfl, rfl⟩

theorem indFrame_trans {a b c : Individual} (h1 : indFrame a b) (h2 : indFrame b c) :
    indFrame a c :=
  ⟨h2.1.trans h1.1, h2.2.1.trans h1.2.1, h2.2.2.1.trans h1.2.2.1, h2.2.2.2.trans h1.2.2.2⟩

theorem mStar_refl (m : Individual) : mStar m m :=
  ⟨indFrame_refl m, ⟨[], (List.append_nil _).symm⟩, Or.inl ⟨rfl, rfl⟩⟩

theorem mStar_trans {a b c : Individual} (h1 : mStar a b) (h2 : mStar b c) : mStar a c := by
  obtain ⟨hf1, ⟨e1, he1⟩, hc1⟩ := h1
  obtain ⟨hf2, ⟨e2, he2⟩, hc2⟩ := h2
  refine ⟨indFrame_trans hf1 hf2, ⟨e1 ++ e2, by rw [he2, he1, List.append_assoc]⟩, ?_⟩
  rcases hc2 with ⟨hc2a, hc2b⟩ | h2s
  · rcases hc1 with ⟨hc1a, hc1b⟩ | ⟨x, q, hx, hq⟩
    · exact Or.inl ⟨hc2a.trans hc1a, hc2b.trans hc1b⟩
    · exact Or.inr ⟨x, q, hc2a.trans hx, hc2b.trans hq⟩
  · exact Or.inr h2s

theorem fStar_refl (f : Individual) : fStar f f :=
  ⟨indFrame_refl f, rfl, Or.inl ⟨rfl, rfl⟩⟩

theorem fStar_trans {a b c : Individual} (h1 : fStar a b) (h2 : fStar b c) : fStar a c := by
  obtain ⟨hf1, hb1, hc1⟩ := h1
  obtain ⟨hf2, hb2, hc2⟩ := h2
  refine ⟨indFrame_trans hf1 hf2, hb2.trans hb1, ?_⟩
  rcases hc2 with ⟨hc2a, hc2b⟩ | h2s
  · rcases hc1 with ⟨hc1a, hc1b⟩ | ⟨x, q, hx, hq⟩
    · exact Or.inl ⟨hc2a.trans hc1a, hc2b.trans hc1b⟩
    · exact Or.inr ⟨x, q, hc2a.trans hx, hc2b.trans hq⟩
  · exact Or.inr h2s

theorem femRel_fStar {mid : String} {mrat : List ℚ} {f f' : Individual}
    (h : femRel mid mrat f f') : fStar f f' := by
  rcases h with rfl | rfl
  · exact fStar_refl _
  · exact ⟨⟨rfl, rfl, rfl, rfl⟩, rfl, Or.inr ⟨mid, dot f.preference_weights mrat, rfl, rfl⟩⟩

/-- If `Individual.score f m` succeeds, the value is the dot product. -/
theorem score_ok_eq {f m : Individual} {s : ℚ}
    (h : Individual.score f m = Except.ok s) :
    s = dot f.preference_weights m.ratings ∧
    f.preference_weights.length = m.ratings.length := by
  unfold Individual.score at h
  split at h
  · exact absurd h (by simp)
  · next hlen =>
    refine ⟨?_, not_not.mp hlen⟩
    simpa [dot] using (Except.ok.injEq _ _ ▸ h).symm

/-- Characterisation of a successful inner scan (`proposeScan`): the male is
changed only as `mStar` allows, and every female is either untouched or
accepted by this male via `Sample.liked`. -/
theorem proposeScan_ok :
    ∀ (fs : List Individual) (m m' : Individual) (fs' : List Individual),
    proposeScan m fs = Except.ok (m', fs') →
    mStar m m' ∧ List.Forall₂ (femRel m.identity m.ratings) fs fs' := by
  intro fs
  induction fs with
  | nil =>
    intro m m' fs' h
    simp only [proposeScan] at h
    obtain ⟨h1, h2⟩ := Prod.mk.injEq _ _ _ _ ▸ (Except.ok.injEq _ _ ▸ h)
    subst h1; subst h2
    exact ⟨mStar_refl m, List.Forall₂.nil⟩
  | cons f rest ih =>
    intro m m' fs' h
    simp only [proposeScan] at h
    split at h
    · -- blacklisted: skip, recurse with the same male
      split at h
      · exact absurd h (by simp)
      · next p heq =>
        obtain ⟨h1, h2⟩ := Prod.mk.injEq _ _ _ _ ▸ (Except.ok.injEq _ _ ▸ h)
        subst h1; subst h2
        obtain ⟨hm, hfs⟩ := ih m p.1 p.2 (by rw [heq])
        exact ⟨hm, List.Forall₂.cons (Or.inl rfl) hfs⟩
    · -- not blacklisted: score the pair
      split at h
      · exact absurd h (by simp)
      · next sc hsc =>
        split at h
        · -- female already has a candidate score
          next cs hcs =>
          split at h
          · -- rejection: push to the male's blacklist, recurse
            split at h
            · exact absurd h (by simp)
            · next p heq =>
              obtain ⟨h1, h2⟩ := Prod.mk.injEq _ _ _ _ ▸ (Except.ok.injEq _ _ ▸ h)
              subst h1; subst h2
              obtain ⟨hm, hfs⟩ := ih _ p.1 p.2 (by rw [heq])
              refine ⟨mStar_trans ?_ hm, List.Forall₂.cons (Or.inl rfl) ?_⟩
              · exact ⟨indFrame_refl _, ⟨[f.identity], rfl⟩, Or.inl ⟨rfl, rfl⟩⟩
              · exact hfs
          · -- acceptance with displacement
            obtain ⟨h1, h2⟩ := Prod.mk.injEq _ _ _ _ ▸ (Except.ok.injEq _ _ ▸ h)
            subst h1; subst h2
            obtain ⟨hdot, _⟩ := score_ok_eq hsc
            refine ⟨⟨indFrame_refl _, ⟨[], (List.append_nil _).symm⟩,
              Or.inr ⟨f.identity, sc, rfl, rfl⟩⟩,
              List.Forall₂.cons (Or.inr ?_) (List.forall₂_same.mpr fun x _ => Or.inl rfl)⟩
            simp [Sample.liked, likedFem, hdot]
        · -- female has no candidate score: acceptance
          obtain ⟨h1, h2⟩ := Prod.mk.injEq _ _ _ _ ▸ (Except.ok.injEq _ _ ▸ h)
          subst h1; subst h2
          obtain ⟨hdot, _⟩ := score_ok_eq hsc
          refine ⟨⟨indFrame_refl _, ⟨[], (List.append_nil _).symm⟩,
            Or.inr ⟨f.identity, sc, rfl, rfl⟩⟩,
            List.Forall₂.cons (Or.inr ?_) (List.forall₂_same.mpr fun x _ => Or.inl rfl)⟩
          simp [Sample.liked, likedFem, hdot]

/-- Composition of two pointwise list relations. -/
theorem forall2_comp {α : Type} {r1 r2 r3 : α → α → Prop}
    (h : ∀ a b c, r1 a b → r2 b c → r3 a c) :
    ∀ {l1 l2 l3 : List α}, List.Forall₂ r1 l1 l2 → List.Forall₂ r2 l2 l3 →
      List.Forall₂ r3 l1 l3 := by
  intro l1 l2 l3 h12 h23
  induction h12 generalizing l3 with
  | nil => cases h23; exact List.Forall₂.nil
  | cons hab hrest ih =>
    cases h23 with
    | cons hbc hrest' => exact List.Forall₂.cons (h _ _ _ hab hbc) (ih hrest')

/-- One full round of the outer loop: every male changes only as `mStar`
allows, every female only as `fStar` allows. -/
theorem matchScan_ok :
    ∀ (ms fs : List Individual) (ms' fs' : List Individual),
    matchScan ms fs = Except.ok (ms', fs') →
    List.Forall₂ mStar ms ms' ∧ List.Forall₂ fStar fs fs' := by
  intro ms
  induction ms with
  | nil =>
    intro fs ms' fs' h
    simp only [matchScan] at h
    obtain ⟨h1, h2⟩ := Prod.mk.injEq _ _ _ _ ▸ (Except.ok.injEq _ _ ▸ h)
    subst h1; subst h2
    exact ⟨List.Forall₂.nil, List.forall₂_same.mpr fun x _ => fStar_refl x⟩
  | cons m rest ih =>
    intro fs ms' fs' h
    simp only [matchScan] at h
    split at h
    · exact absurd h (by simp)
    · next p heq =>
      split at h
      · exact absurd h (by simp)
      · next q heq2 =>
        obtain ⟨h1, h2⟩ := Prod.mk.injEq _ _ _ _ ▸ (Except.ok.injEq _ _ ▸ h)
        subst h1; subst h2
        obtain ⟨hm, hfs⟩ := proposeScan_ok fs m p.1 p.2 (by rw [heq])
        obtain ⟨hms, hfs2⟩ := ih p.2 q.1 q.2 (by rw [heq2])
        refine ⟨List.Forall₂.cons hm hms, ?_⟩
        exact @forall2_comp Individual (femRel m.identity m.ratings) fStar fStar
          (fun a b c h1 h2 => fStar_trans (femRel_fStar h1) h2) _ _ _ hfs hfs2

theorem match_making_ok {s s' : Sample} (h : s.match_making = Except.ok s') :
    List.Forall₂ mStar s.male_population s'.male_population ∧
    List.Forall₂ fStar s.female_population s'.female_population := by
  unfold Sample.match_making at h
  split at h
  · exact absurd h (by simp)
  · next p heq =>
    cases Except.ok.injEq _ _ ▸ h
    exact matchScan_ok _ _ p.1 p.2 (by rw [heq])

/-- Any number of rounds changes males only as `mStar` allows and females
only as `fStar` allows. -/
theorem runRounds_ok :
    ∀ (n : ℕ) (s s' : Sample), runRounds n s = Except.ok s' →
    List.Forall₂ mStar s.male_population s'.male_population ∧
    List.Forall₂ fStar s.female_population s'.female_population := by
  intro n
  induction n with
  | zero =>
    intro s s' h
    cases Except.ok.injEq _ _ ▸ h
    exact ⟨List.forall₂_same.mpr fun x _ => mStar_refl x,
      List.forall₂_same.mpr fun x _ => fStar_refl x⟩
  | succ k ih =>
    intro s s' h
    simp only [runRounds] at h
    split at h
    · exact absurd h (by simp)
    · next t heq =>
      obtain ⟨hm1, hf1⟩ := match_making_ok heq
      obtain ⟨hm2, hf2⟩ := ih t s' h
      exact ⟨@forall2_comp Individual mStar mStar mStar
          (fun a b c h1 h2 => mStar_trans h1 h2) _ _ _ hm1 hm2,
        @forall2_comp Individual fStar fStar fStar
          (fun a b c h1 h2 => fStar_trans h1 h2) _ _ _ hf1 hf2⟩

/-- The zip-based dot product equals the index-based sum when lengths agree. -/
theorem dot_eq_range_sum :
    ∀ (a b : List ℚ), a.length = b.length →
    dot a b = ((List.range a.length).map (fun i => a.getD i 0 * b.getD i 0)).sum := by
  intro a
  induction a with
  | nil =>
    intro b h
    simp [dot]
  | cons x xs ih =>
    intro b h
    cases b with
    | nil => simp at h
    | cons y ys =>
      have hlen : xs.length = ys.length := by simpa using h
      have hstep : dot (x :: xs) (y :: ys) = x * y + dot xs ys := by
        simp [dot]
      rw [hstep, ih ys hlen]
      simp [List.range_succ_eq_map, List.map_map, Function.comp_def]

/-- Transfer a pointwise relation along `getD` given reflexivity. -/
theorem forall2_getD {r : Individual → Individual → Prop} (hrefl : ∀ a, r a a)
    {l1 l2 : List Individual} (h : List.Forall₂ r l1 l2) (i : ℕ) :
    r (l1.getD i default) (l2.getD i default) := by
  rcases Nat.lt_or_ge i l1.length with hi | hi
  · have hi2 : i < l2.length := h.length_eq ▸ hi
    rw [List.getD_eq_getElem _ _ hi, List.getD_eq_getElem _ _ hi2]
    simpa using h.get hi hi2
  · rw [List.getD_eq_default _ _ hi, List.getD_eq_default _ _ (h.length_eq ▸ hi)]
    exact hrefl _

theorem mStar_lockstep {m m' : Individual} (h : mStar m m') (hl : lockstep m) :
    lockstep m' := by
  rcases h.2.2 with ⟨h1, h2⟩ | ⟨x, q, h1, h2⟩
  · unfold lockstep at hl ⊢
    rw [h1, h2]; exact hl
  · unfold lockstep
    rw [h1, h2]
    rfl

theorem fStar_lockstep {f f' : Individual} (h : fStar f f') (hl : lockstep f) :
    lockstep f' := by
  rcases h.2.2 with ⟨h1, h2⟩ | ⟨x, q, h1, h2⟩
  · unfold lockstep at hl ⊢
    rw [h1, h2]; exact hl
  · unfold lockstep
    rw [h1, h2]
    rfl

/-! ### The claims -/

/-- **C2.** For every pair (evaluator, target) whose `preference_weights`
and `ratings` have equal length, `score` returns `Ok` of the sum over
`i ∈ [0, D)` of `evaluator.preference_weights[i] * target.ratings[i]`.
(The embedding is a pure function, so determinism and absence of side
effects hold by construction.) -/
theorem claim2_score_dot_product (evaluator target : Individual)
    (h : evaluator.preference_weights.length = target.ratings.length) :
    Individual.score evaluator target =
      Except.ok (((List.range evaluator.preference_weights.length).map
        (fun i => evaluator.preference_weights.getD i 0 * target.ratings.getD i 0)).sum) := by
  unfold Individual.score
  rw [if_neg (by simp [h])]
  exact congrArg Except.ok (dot_eq_range_sum _ _ h)

theorem claim2_witness :
    (mkFemale "fw" [2, 3]).preference_weights.length = (mkMale "mw" [4, 5]).ratings.length ∧
    Individual.score (mkFemale "fw" [2, 3]) (mkMale "mw" [4, 5]) = Except.ok 23 :=
  ⟨by decide, by
    rw [claim2_score_dot_product (mkFemale "fw" [2, 3]) (mkMale "mw" [4, 5]) (by decide)]
    norm_num [mkMale, mkFemale, List.range_succ]⟩

/-- **C4 (code bug).** With zero proposers and zero responders the code does
*not* report 0%: it computes the unguarded `0.0 / 0.0` and reports NaN.
This theorem evaluates the embedded `display_statistics` at the empty
population and shows the reported percentage is NaN. -/
theorem claim4_zero_population_nan :
    (Sample.display_statistics ⟨[], []⟩).unmatched_percentage = F64.nan := by
  decide

/-- **C7.** If a weight vector is supplied whose length differs from the
declared preference complexity, `Individual.new` fails with the
configuration error and consumes nothing from the random sources (fail
fast): no identity, gender or ratings are drawn and no individual is built. -/
theorem claim7_fail_fast (D : ℕ) (w : List ℚ) (rng : Rng) (h : w.length ≠ D) :
    Individual.new D (some w) rng =
      (Except.error "Wrong size of specified predefined weights!", rng) := by
  simp only [Individual.new]
  rw [if_pos h]

theorem claim7_witness :
    ([(3 : ℚ), 4].length ≠ 3) ∧
    Individual.new 3 (some [(3 : ℚ), 4]) ⟨[1, 2], [Gender.Male], ["id1"]⟩ =
      (Except.error "Wrong size of specified predefined weights!",
       ⟨[1, 2], [Gender.Male], ["id1"]⟩) :=
  ⟨by decide, claim7_fail_fast 3 [(3 : ℚ), 4] ⟨[1, 2], [Gender.Male], ["id1"]⟩ (by decide)⟩

/-- **C9.** `match_making` (over any number of rounds) changes only the
`candidate`, `candidate_score` and `blacklist` fields: population sizes are
unchanged (no individual added or removed) and every individual keeps its
`identity`, `gender`, `preference_weights` and `ratings`, positionally. -/
theorem claim9_frame (n : ℕ) (s s' : Sample) (h : runRounds n s = Except.ok s') :
    s'.male_population.length = s.male_population.length ∧
    s'.female_population.length = s.female_population.length ∧
    (∀ i : ℕ, indFrame (s.male_population.getD i default)
      (s'.male_population.getD i default)) ∧
    (∀ i : ℕ, indFrame (s.female_population.getD i default)
      (s'.female_population.getD i default)) := by
  obtain ⟨hm, hf⟩ := runRounds_ok n s s' h
  refine ⟨hm.length_eq.symm, hf.length_eq.symm, ?_, ?_⟩
  · intro i
    exact (forall2_getD indFrame_refl (hm.imp fun a b hr => hr.1) i)
  · intro i
    exact (forall2_getD indFrame_refl (hf.imp fun a b hr => hr.1) i)

theorem claim9_witness :
    runRounds 2 exBlacklistSample = Except.ok exBlacklistAfter1 ∧
    exBlacklistAfter1.male_population.length = exBlacklistSample.male_population.length ∧
    indFrame (exBlacklistSample.male_population.getD 1 default)
      (exBlacklistAfter1.male_population.getD 1 default) := by
  have hrun : runRounds 2 exBlacklistSample = Except.ok exBlacklistAfter1 := by
    norm_num [runRounds, Sample.match_making, matchScan, proposeScan, Individual.score,
      Sample.liked, exBlacklistSample, exBlacklistAfter1, mkMale, mkFemale]
  have h := claim9_frame 2 exBlacklistSample exBlacklistAfter1 hrun
  exact ⟨hrun, h.1, h.2.2.1 1⟩

/-- Membership on the right of a `Forall₂` has a related member on the left. -/
theorem forall2_mem_right {α : Type} {r : α → α → Prop} :
    ∀ {l1 l2 : List α}, List.Forall₂ r l1 l2 → ∀ {b}, b ∈ l2 → ∃ a ∈ l1, r a b := by
  intro l1 l2 h
  induction h with
  | nil =>
    intro b hb
    simp at hb
  | cons hab hrest ih =>
    intro b hb
    rcases List.mem_cons.mp hb with rfl | hb
    · exact ⟨_, List.mem_cons_self _ _, hab⟩
    · obtain ⟨a, ha, hr⟩ := ih hb
      exact ⟨a, List.mem_cons_of_mem _ ha, hr⟩

/-- Every individual built by `Individual.finishNew` has an empty blacklist
and no candidate. -/
theorem finishNew_fresh {w : List ℚ} {D : ℕ} {rng : Rng} {ind : Individual} {rng' : Rng}
    (h : Individual.finishNew w D rng = (Except.ok ind, rng')) :
    ind.blacklist = [] ∧ ind.candidate = none ∧ ind.candidate_score = none := by
  unfold Individual.finishNew at h
  have h1 := congrArg Prod.fst h
  simp only at h1
  injection h1 with h2
  subst h2
  exact ⟨rfl, rfl, rfl⟩

/-- Every individual built by `Individual.new` has an empty blacklist and no
candidate. -/
theorem new_fresh {D : ℕ} {spec : Option (List ℚ)} {rng : Rng} {ind : Individual} {rng' : Rng}
    (h : Individual.new D spec rng = (Except.ok ind, rng')) :
    ind.blacklist = [] ∧ ind.candidate = none ∧ ind.candidate_score = none := by
  cases spec with
  | none =>
    simp only [Individual.new] at h
    exact finishNew_fresh h
  | some w =>
    simp only [Individual.new] at h
    split at h
    · exact absurd (congrArg Prod.fst h) (by simp)
    · exact finishNew_fresh h

/-- **C6.** `candidate.is_some() == candidate_score.is_some()` at every
observable point: a freshly created individual has both fields `None`, and
any number of matching rounds preserves the lockstep property for every
individual of either population. -/
theorem claim6_candidate_lockstep :
    (∀ (D : ℕ) (spec : Option (List ℚ)) (rng : Rng) (ind : Individual) (rng' : Rng),
      Individual.new D spec rng = (Except.ok ind, rng') →
      ind.candidate = none ∧ ind.candidate_score = none) ∧
    (∀ (n : ℕ) (s s' : Sample), runRounds n s = Except.ok s' →
      (∀ i ∈ s.male_population ++ s.female_population, lockstep i) →
      (∀ i ∈ s'.male_population ++ s'.female_population, lockstep i)) := by
  constructor
  · intro D spec rng ind rng' h
    exact (new_fresh h).2
  · intro n s s' h hls i hi
    obtain ⟨hm, hf⟩ := runRounds_ok n s s' h
    rcases List.mem_append.mp hi with hi | hi
    · obtain ⟨a, ha, hr⟩ := forall2_mem_right hm hi
      exact mStar_lockstep hr (hls a (List.mem_append_left _ ha))
    · obtain ⟨a, ha, hr⟩ := forall2_mem_right hf hi
      exact fStar_lockstep hr (hls a (List.mem_append_right _ ha))

theorem claim6_witness :
    (Individual.new 1 none ⟨[1, 2], [Gender.Female], ["w1"]⟩ =
      (Except.ok exNewInd, ⟨[], [], []⟩) ∧
      exNewInd.candidate = none ∧ exNewInd.candidate_score = none) ∧
    (runRounds 1 exDisplaceSample = Except.ok exDisplaceAfter1 ∧
      (∀ i ∈ exDisplaceSample.male_population ++ exDisplaceSample.female_population,
        lockstep i) ∧
      (∀ i ∈ exDisplaceAfter1.male_population ++ exDisplaceAfter1.female_population,
        lockstep i)) := by
  have hnew : Individual.new 1 none ⟨[1, 2], [Gender.Female], ["w1"]⟩ =
      (Except.ok exNewInd, ⟨[], [], []⟩) := by rfl
  have hrun : runRounds 1 exDisplaceSample = Except.ok exDisplaceAfter1 := by
    norm_num [runRounds, Sample.match_making, matchScan, proposeScan, Individual.score,
      Sample.liked, exDisplaceSample, exDisplaceAfter1, mkMale, mkFemale]
  have hls : ∀ i ∈ exDisplaceSample.male_population ++ exDisplaceSample.female_population,
      lockstep i := by
    simp [exDisplaceSample, mkMale, mkFemale, lockstep]
  exact ⟨⟨hnew, claim6_candidate_lockstep.1 1 none _ _ _ hnew⟩,
    hrun, hls, claim6_candidate_lockstep.2 1 _ _ hrun hls⟩

/-- **C10.** Responders' blacklists: every individual is created with an
empty blacklist, and matching rounds never append to a female's blacklist
(all pushes go to the proposing male), so female blacklists are unchanged
by any number of rounds and in particular stay empty forever. -/
theorem claim10_female_blacklist_empty :
    (∀ (D : ℕ) (spec : Option (List ℚ)) (rng : Rng) (ind : Individual) (rng' : Rng),
      Individual.new D spec rng = (Except.ok ind, rng') → ind.blacklist = []) ∧
    (∀ (n : ℕ) (s s' : Sample), runRounds n s = Except.ok s' →
      (∀ j : ℕ, (s'.female_population.getD j default).blacklist =
        (s.female_population.getD j default).blacklist) ∧
      ((∀ f ∈ s.female_population, f.blacklist = []) →
        ∀ f' ∈ s'.female_population, f'.blacklist = [])) := by
  constructor
  · intro D spec rng ind rng' h
    exact (new_fresh h).1
  · intro n s s' h
    obtain ⟨hm, hf⟩ := runRounds_ok n s s' h
    constructor
    · intro j
      exact (forall2_getD fStar_refl hf j).2.1
    · intro hall f' hf'
      obtain ⟨a, ha, hr⟩ := forall2_mem_right hf hf'
      rw [hr.2.1]
      exact hall a ha

theorem claim10_witness :
    (Individual.new 1 none ⟨[1, 2], [Gender.Female], ["w1"]⟩ =
      (Except.ok exNewInd, ⟨[], [], []⟩) ∧ exNewInd.blacklist = []) ∧
    (runRounds 2 exBlacklistSample = Except.ok exBlacklistAfter1 ∧
      (exBlacklistAfter1.female_population.getD 0 default).blacklist =
        (exBlacklistSample.female_population.getD 0 default).blacklist ∧
      (∀ f ∈ exBlacklistSample.female_population, f.blacklist = []) ∧
      (∀ f' ∈ exBlacklistAfter1.female_population, f'.blacklist = [])) := by
  have hnew : Individual.new 1 none ⟨[1, 2], [Gender.Female], ["w1"]⟩ =
      (Except.ok exNewInd, ⟨[], [], []⟩) := by rfl
  have hrun : runRounds 2 exBlacklistSample = Except.ok exBlacklistAfter1 := by
    norm_num [runRounds, Sample.match_making, matchScan, proposeScan, Individual.score,
      Sample.liked, exBlacklistSample, exBlacklistAfter1, mkMale, mkFemale]
  have hall : ∀ f ∈ exBlacklistSample.female_population, f.blacklist = [] := by
    simp [exBlacklistSample, mkFemale]
  obtain ⟨h1, h2⟩ := claim10_female_blacklist_empty.2 2 _ _ hrun
  exact ⟨⟨hnew, claim10_female_blacklist_empty.1 1 none _ _ _ hnew⟩,
    hrun, h1 0, hall, h2 hall⟩

/-- The only error `Individual.score` produces is the dimension-mismatch
message. -/
theorem score_error_msg {f m : Individual} {e : String}
    (h : Individual.score f m = Except.error e) :
    e = "Twos predefined weights and ratings do not match." := by
  unfold Individual.score at h
  split at h
  · exact (Except.error.injEq _ _ ▸ h).symm
  · exact absurd h (by simp)

/-- The only error an inner scan produces is a propagated score error. -/
theorem proposeScan_error_msg :
    ∀ (fs : List Individual) (m : Individual) (e : String),
    proposeScan m fs = Except.error e →
    e = "Twos predefined weights and ratings do not match." := by
  intro fs
  induction fs with
  | nil =>
    intro m e h
    exact absurd h (by simp [proposeScan])
  | cons f rest ih =>
    intro m e h
    simp only [proposeScan] at h
    split at h
    · split at h
      · next e2 heq =>
        obtain rfl := (Except.error.injEq _ _ ▸ h)
        exact ih m _ heq
      · exact absurd h (by simp)
    · split at h
      · next e2 heq =>
        obtain rfl := (Except.error.injEq _ _ ▸ h)
        exact score_error_msg heq
      · next sc hsc =>
        split at h
        · next cs hcs =>
          split at h
          · split at h
            · next e2 heq =>
              obtain rfl := (Except.error.injEq _ _ ▸ h)
              exact ih _ _ heq
            · exact absurd h (by simp)
          · exact absurd h (by simp)
        · exact absurd h (by simp)

/-- The only error a round produces is a propagated score error. -/
theorem matchScan_error_msg :
    ∀ (ms fs : List Individual) (e : String),
    matchScan ms fs = Except.error e →
    e = "Twos predefined weights and ratings do not match." := by
  intro ms
  induction ms with
  | nil =>
    intro fs e h
    exact absurd h (by simp [matchScan])
  | cons m rest ih =>
    intro fs e h
    simp only [matchScan] at h
    split at h
    · next e2 heq =>
      obtain rfl := (Except.error.injEq _ _ ▸ h)
      exact proposeScan_error_msg fs m _ heq
    · next p heq =>
      split at h
      · next e2 heq2 =>
        obtain rfl := (Except.error.injEq _ _ ▸ h)
        exact ih p.2 _ heq2
      · exact absurd h (by simp)

/-- **C8.** `score` returns a dimension-mismatch error exactly when the
evaluator's weights and the target's ratings differ in length; and an error
arising at any scored pair of a round is propagated by `match_making`,
never swallowed.  The conjuncts cover every position an error can occur at:
(ii) the erroring pair itself aborts the scan at once; (iii) a blacklist
skip and (iv) a rejection step each preserve the scan's error exactly, so
an error behind any number of skips and rejections surfaces from the male's
whole scan; (v) a male whose scan errors aborts the round, (vi) a
successful male's round errors exactly when the remaining males' round
does, and (vii) in general a scan error at any male, after any prefix of
processed males, aborts the whole round; (viii) `match_making` errors
exactly when the round's scan errors, and (ix) every `match_making` error
is the dimension-mismatch error.  Hence nothing is skipped: any
dimension-mismatch error occurring inside a round is returned by
`match_making`. -/
theorem claim8_dimension_mismatch :
    (∀ f m : Individual, (∃ e, Individual.score f m = Except.error e) ↔
      f.preference_weights.length ≠ m.ratings.length) ∧
    (∀ (m f : Individual) (fs : List Individual) (e : String),
      f.identity ∉ m.blacklist → Individual.score f m = Except.error e →
      proposeScan m (f :: fs) = Except.error e) ∧
    (∀ (m f : Individual) (fs : List Individual) (e : String),
      f.identity ∈ m.blacklist →
      (proposeScan m (f :: fs) = Except.error e ↔
        proposeScan m fs = Except.error e)) ∧
    (∀ (m f : Individual) (fs : List Individual) (s cs : ℚ) (e : String),
      f.identity ∉ m.blacklist → Individual.score f m = Except.ok s →
      f.candidate_score = some cs → s < cs →
      (proposeScan m (f :: fs) = Except.error e ↔
        proposeScan { m with blacklist := m.blacklist ++ [f.identity] } fs =
          Except.error e)) ∧
    (∀ (m : Individual) (ms fs : List Individual) (e : String),
      proposeScan m fs = Except.error e → matchScan (m :: ms) fs = Except.error e) ∧
    (∀ (m : Individual) (ms fs : List Individual) (p : Individual × List Individual)
      (e : String), proposeScan m fs = Except.ok p →
      (matchScan (m :: ms) fs = Except.error e ↔
        matchScan ms p.2 = Except.error e)) ∧
    (∀ (ms1 : List Individual) (m : Individual)
      (ms2 fs fs1 ms1' : List Individual) (e : String),
      matchScan ms1 fs = Except.ok (ms1', fs1) →
      proposeScan m fs1 = Except.error e →
      matchScan (ms1 ++ m :: ms2) fs = Except.error e) ∧
    (∀ (s : Sample) (e : String),
      s.match_making = Except.error e ↔
        matchScan s.male_population s.female_population = Except.error e) ∧
    (∀ (s : Sample) (e : String), s.match_making = Except.error e →
      e = "Twos predefined weights and ratings do not match.") := by
  refine ⟨?_, ?_, ?_, ?_, ?_, ?_, ?_, ?_, ?_⟩
  · intro f m
    constructor
    · rintro ⟨e, he⟩
      unfold Individual.score at he
      split at he
      · next hne => exact hne
      · exact absurd he (by simp)
    · intro hne
      refine ⟨"Twos predefined weights and ratings do not match.", ?_⟩
      unfold Individual.score
      rw [if_pos hne]
  · intro m f fs e hnb he
    have hc : (m.blacklist.contains f.identity) = false := by
      simpa using hnb
    simp only [proposeScan, hc, Bool.false_eq_true, if_false, he]
  · intro m f fs e hb
    have hc : (m.blacklist.contains f.identity) = true := by
      simpa using hb
    simp only [proposeScan, hc, if_true]
    cases hps : proposeScan m fs with
    | error e2 => exact Iff.rfl
    | ok p => simp
  · intro m f fs s cs e hnb hsc hcs hlt
    have hc : (m.blacklist.contains f.identity) = false := by
      simpa using hnb
    simp only [proposeScan, hc, Bool.false_eq_true, if_false, hsc, hcs, if_pos hlt]
    cases hps : proposeScan { m with blacklist := m.blacklist ++ [f.identity] } fs with
    | error e2 => exact Iff.rfl
    | ok p => simp
  · intro m ms fs e he
    simp only [matchScan, he]
  · intro m ms fs p e hp
    simp only [matchScan, hp]
    cases hms : matchScan ms p.2 with
    | error e2 => exact Iff.rfl
    | ok q => simp
  · intro ms1
    induction ms1 with
    | nil =>
      intro m ms2 fs fs1 ms1' e hok herr
      simp only [matchScan] at hok
      obtain ⟨h1, h2⟩ := Prod.mk.injEq _ _ _ _ ▸ (Except.ok.injEq _ _ ▸ hok)
      subst h2
      simp only [List.nil_append, matchScan, herr]
    | cons m0 rest ih =>
      intro m ms2 fs fs1 ms1' e hok herr
      simp only [matchScan] at hok
      split at hok
      · exact absurd hok (by simp)
      · next p heq =>
        split at hok
        · exact absurd hok (by simp)
        · next q heq2 =>
          obtain ⟨h1, h2⟩ := Prod.mk.injEq _ _ _ _ ▸ (Except.ok.injEq _ _ ▸ hok)
          subst h2
          have hrec := ih m ms2 p.2 q.2 q.1 e (by rw [heq2]) herr
          simp only [List.cons_append, matchScan, heq, List.append_eq, hrec]
  · intro s e
    unfold Sample.match_making
    cases hms : matchScan s.male_population s.female_population with
    | error e2 => simp
    | ok p => simp
  · intro s e h
    unfold Sample.match_making at h
    split at h
    · next e2 heq =>
      obtain rfl := (Except.error.injEq _ _ ▸ h)
      exact matchScan_error_msg _ _ _ heq
    · exact absurd h (by simp)

theorem claim8_witness :
    ((mkFemale "fbad" [1, 2]).preference_weights.length ≠
      (mkMale "mb" [3]).ratings.length) ∧
    (∃ e, Individual.score (mkFemale "fbad" [1, 2]) (mkMale "mb" [3]) =
      Except.error e) ∧
    matchScan [mkMale "ma" [4]] exMismatch2Sample.female_population =
      Except.ok ([exMaleAMatched], [exFemOkMatched, mkFemale "fbad" [1, 2]]) ∧
    proposeScan (mkMale "mb" [3]) [exFemOkMatched, mkFemale "fbad" [1, 2]] =
      Except.error "Twos predefined weights and ratings do not match." ∧
    proposeScan exSkipMaleB [mkFemale "fok" [2], mkFemale "fbad" [1, 2]] =
      Except.error "Twos predefined weights and ratings do not match." ∧
    exMismatch2Sample.match_making =
      Except.error "Twos predefined weights and ratings do not match." := by
  have hlen : (mkFemale "fbad" [1, 2]).preference_weights.length ≠
      (mkMale "mb" [3]).ratings.length := by decide
  have hex := (claim8_dimension_mismatch.1 (mkFemale "fbad" [1, 2])
    (mkMale "mb" [3])).mpr hlen
  have hscan : matchScan [mkMale "ma" [4]] exMismatch2Sample.female_population =
      Except.ok ([exMaleAMatched], [exFemOkMatched, mkFemale "fbad" [1, 2]]) := by
    norm_num [matchScan, proposeScan, Individual.score, Sample.liked, mkMale, mkFemale,
      exMismatch2Sample, exMaleAMatched, exFemOkMatched]
  -- the error at the pair itself, behind the rejection step of the second male
  have herrtail := claim8_dimension_mismatch.2.1
    { mkMale "mb" [3] with blacklist := (mkMale "mb" [3]).blacklist ++
        [exFemOkMatched.identity] }
    (mkFemale "fbad" [1, 2]) []
    "Twos predefined weights and ratings do not match." (by decide) (by rfl)
  have hscore : Individual.score exFemOkMatched (mkMale "mb" [3]) = Except.ok 6 := by
    norm_num [Individual.score, mkMale, mkFemale, exFemOkMatched]
  have hrej := (claim8_dimension_mismatch.2.2.2.1 (mkMale "mb" [3]) exFemOkMatched
    [mkFemale "fbad" [1, 2]] 6 8
    "Twos predefined weights and ratings do not match."
    (by decide) hscore rfl (by norm_num)).mpr herrtail
  -- the same error behind a blacklist skip
  have herrtail2 := claim8_dimension_mismatch.2.1 exSkipMaleB (mkFemale "fbad" [1, 2]) []
    "Twos predefined weights and ratings do not match." (by decide) (by rfl)
  have hskip := (claim8_dimension_mismatch.2.2.1 exSkipMaleB (mkFemale "fok" [2])
    [mkFemale "fbad" [1, 2]]
    "Twos predefined weights and ratings do not match." (by decide)).mpr herrtail2
  -- propagation across the already-processed first male, then out of the round
  have hmsc : matchScan exMismatch2Sample.male_population
      exMismatch2Sample.female_population =
      Except.error "Twos predefined weights and ratings do not match." :=
    claim8_dimension_mismatch.2.2.2.2.2.2.1 [mkMale "ma" [4]] (mkMale "mb" [3]) []
      exMismatch2Sample.female_population [exFemOkMatched, mkFemale "fbad" [1, 2]]
      [exMaleAMatched] "Twos predefined weights and ratings do not match." hscan hrej
  have hmm := (claim8_dimension_mismatch.2.2.2.2.2.2.2.1 exMismatch2Sample
    "Twos predefined weights and ratings do not match.").mpr hmsc
  exact ⟨hlen, hex, hscan, hrej, hskip, hmm⟩

/-- **C1.** The per-proposer policy of one `match_making` round, assuming
the lockstep invariant for the responder at the head of the scan:
(i) an exhausted responder list leaves the proposer unchanged;
(ii) a responder whose identity is in the proposer's blacklist is skipped;
(iii) for the first non-skipped responder with `s = score(responder,
proposer)`, if she has no candidate or `s ≥` her stored `candidate_score`
(equality accepts and displaces), both parties' candidate fields are set to
each other's identity with score `s` and the scan stops — so the first
acceptable responder wins, not the best-scoring one;
(iv) if `s <` her stored score, her identity is appended to the proposer's
blacklist and the scan continues;
(v) the round processes proposers in population storage order. -/
theorem claim1_match_making_policy (m f : Individual) (fs : List Individual) (s : ℚ)
    (hl : lockstep f) :
    (proposeScan m [] = Except.ok (m, [])) ∧
    (f.identity ∈ m.blacklist →
      proposeScan m (f :: fs) = (proposeScan m fs).map (fun p => (p.1, f :: p.2))) ∧
    (f.identity ∉ m.blacklist → Individual.score f m = Except.ok s →
      (f.candidate = none ∨ ∃ cs, f.candidate_score = some cs ∧ cs ≤ s) →
      proposeScan m (f :: fs) = Except.ok
        ({ m with candidate := some f.identity, candidate_score := some s },
         { f with candidate := some m.identity, candidate_score := some s } :: fs)) ∧
    (f.identity ∉ m.blacklist → Individual.score f m = Except.ok s →
      ∀ cs, f.candidate_score = some cs → s < cs →
      proposeScan m (f :: fs) =
        (proposeScan { m with blacklist := m.blacklist ++ [f.identity] } fs).map
          (fun p => (p.1, f :: p.2))) ∧
    (∀ ms : List Individual, matchScan (m :: ms) fs =
      (proposeScan m fs).bind (fun p =>
        (matchScan ms p.2).map (fun q => (p.1 :: q.1, q.2)))) := by
  refine ⟨rfl, ?_, ?_, ?_, ?_⟩
  · intro hb
    have hc : (m.blacklist.contains f.identity) = true := by
      simpa using hb
    simp only [proposeScan, hc, if_true]
    cases hps : proposeScan m fs with
    | error e => rfl
    | ok p => rfl
  · intro hnb hsc hacc
    have hc : (m.blacklist.contains f.identity) = false := by
      simpa using hnb
    rcases hacc with hnone | ⟨cs, hcs, hle⟩
    · have hcsn : f.candidate_score = none := by
        unfold lockstep at hl
        rw [hnone] at hl
        cases hcs : f.candidate_score with
        | none => rfl
        | some q => rw [hcs] at hl; exact absurd hl (by simp)
      simp only [proposeScan, hc, Bool.false_eq_true, if_false, hsc, hcsn]
      simp [Sample.liked]
    · simp only [proposeScan, hc, Bool.false_eq_true, if_false, hsc, hcs,
        if_neg (not_lt.mpr hle)]
      simp [Sample.liked]
  · intro hnb hsc cs hcs hlt
    have hc : (m.blacklist.contains f.identity) = false := by
      simpa using hnb
    simp only [proposeScan, hc, Bool.false_eq_true, if_false, hsc, hcs, if_pos hlt]
    cases hps : proposeScan { m with blacklist := m.blacklist ++ [f.identity] } fs with
    | error e => rfl
    | ok p => rfl
  · intro ms
    simp only [matchScan]
    cases hps : proposeScan m fs with
    | error e => rfl
    | ok p =>
      show (match matchScan ms p.2 with
        | Except.error e => Except.error e
        | Except.ok q => Except.ok (p.1 :: q.1, q.2)) =
        (matchScan ms p.2).map (fun q => (p.1 :: q.1, q.2))
      cases matchScan ms p.2 with
      | error e => rfl
      | ok q => rfl

theorem claim1_witness :
    lockstep (mkFemale "f" [1]) ∧
    Individual.score (mkFemale "f" [1]) (mkMale "m1" [5]) = Except.ok 5 ∧
    proposeScan (mkMale "m1" [5]) [mkFemale "f" [1]] = Except.ok
      ({ mkMale "m1" [5] with candidate := some "f", candidate_score := some 5 },
       [{ mkFemale "f" [1] with candidate := some "m1", candidate_score := some 5 }]) := by
  have hsc : Individual.score (mkFemale "f" [1]) (mkMale "m1" [5]) = Except.ok 5 := by
    norm_num [Individual.score, mkMale, mkFemale]
  refine ⟨rfl, hsc, ?_⟩
  exact (claim1_match_making_policy (mkMale "m1" [5]) (mkFemale "f" [1]) [] 5 rfl).2.2.1
    (by decide) hsc (Or.inl rfl)

/-- The length of `filterMap` counts the inputs where the function hits. -/
theorem length_filterMap_eq {α β : Type} (g : α → Option β) :
    ∀ l : List α, (l.filterMap g).length = (l.filter (fun x => (g x).isSome)).length := by
  intro l
  induction l with
  | nil => rfl
  | cons x xs ih =>
    cases hx : g x with
    | none => simpa [List.filterMap_cons, hx] using ih
    | some b => simpa [List.filterMap_cons, hx] using ih

/-- Filtering on the negation counts the complement. -/
theorem length_filter_not {α : Type} (p : α → Bool) :
    ∀ l : List α, (l.filter (fun x => !(p x))).length = l.length - (l.filter p).length := by
  intro l
  induction l with
  | nil => rfl
  | cons x xs ih =>
    have hle := List.length_filter_le p xs
    cases hx : p x with
    | false => simp [List.filter_cons, hx, ih]; omega
    | true => simp [List.filter_cons, hx, ih]

/-- **C5 (counterexample).** After one round of `exDisplaceSample` the first
male's `candidate` stale-points at the female while she holds the second
male, so the reported matched-proposer count (1) differs from the number of
proposers with `candidate.is_some()` (2): the claim's description of
`display_statistics` is false on a reachable state. -/
theorem claim5_counterexample :
    runRounds 1 exDisplaceSample = Except.ok exDisplaceAfter1 ∧
    ¬ (exDisplaceAfter1.display_statistics.matched_males =
        (exDisplaceAfter1.male_population.filter (fun i => i.candidate.isSome)).length ∧
       exDisplaceAfter1.display_statistics.matched_females =
        (exDisplaceAfter1.female_population.filter (fun i => i.candidate.isSome)).length) := by
  constructor
  · norm_num [runRounds, Sample.match_making, matchScan, proposeScan, Individual.score,
      Sample.liked, exDisplaceSample, exDisplaceAfter1, mkMale, mkFemale]
  · decide

/-- **C5 (amended).** What `display_statistics` actually reports: the
matched-proposer count is the number of proposers some responder's
`candidate` points at (mutual matches as seen from the responders' side,
not `candidate.is_some()` on the proposer); the matched-responder count
always equals the matched-proposer count (one responder is recorded per
matched proposer); and the unmatched-proposer count is the complement. -/
theorem claim5_matched_counts (s : Sample) :
    s.display_statistics.matched_males =
      (s.male_population.filter
        (fun m => s.female_population.any (fun f => f.candidate == some m.identity))).length ∧
    s.display_statistics.matched_females = s.display_statistics.matched_males ∧
    s.display_statistics.no_match_males =
      s.male_population.length - s.display_statistics.matched_males := by
  refine ⟨?_, ?_, ?_⟩
  · unfold Sample.display_statistics
    simp only
    congr 1
    apply List.filter_congr
    intro m _
    rcases hfp : firstPointing m s.female_population with _ | f
    · unfold firstPointing at hfp
      simp only [List.find?_eq_none] at hfp
      simp only [Option.isSome_none]
      symm
      simp only [List.any_eq_false]
      exact hfp
    · unfold firstPointing at hfp
      have := List.find?_some hfp
      simp only [Option.isSome_some]
      symm
      simp only [List.any_eq_true]
      exact ⟨f, List.mem_of_find?_eq_some hfp, this⟩
  · unfold Sample.display_statistics
    simp only
    exact length_filterMap_eq _ _
  · unfold Sample.display_statistics
    simp only
    exact length_filter_not _ _

/-! ### The permanence of blacklist entries (claim C3) -/

/-- In a list of pairs with pairwise distinct keys, a key determines its
value. -/
theorem key_unique {l : List (String × List ℚ)} :
    (l.map Prod.fst).Nodup →
    ∀ {a : String} {b c : List ℚ}, (a, b) ∈ l → (a, c) ∈ l → b = c := by
  induction l with
  | nil =>
    intro _ a b c hb
    exact absurd hb (List.not_mem_nil _)
  | cons x xs ih =>
    intro hnd a b c hb hc
    rw [List.map_cons, List.nodup_cons] at hnd
    rcases List.mem_cons.mp hb with hb1 | hb2
    · rcases List.mem_cons.mp hc with hc1 | hc2
      · rw [← hb1] at hc1
        exact ((Prod.mk.injEq _ _ _ _ ▸ hc1.symm : a = a ∧ b = c)).2
      · exfalso
        apply hnd.1
        have ha : a = x.1 := by rw [← hb1]
        rw [← ha]
        exact List.mem_map_of_mem Prod.fst hc2
    · rcases List.mem_cons.mp hc with hc1 | hc2
      · exfalso
        apply hnd.1
        have ha : a = x.1 := by rw [← hc1]
        rw [← ha]
        exact List.mem_map_of_mem Prod.fst hb2
      · exact ih hnd.2 hb2 hc2

/-- `femRel` preserves score consistency, given that the scanning male's
entry occurs in the key-unique directory. -/
theorem femRel_FInv {dir : List (String × List ℚ)} {mid : String} {mrat : List ℚ}
    (hmem : (mid, mrat) ∈ dir) (hnd : (dir.map Prod.fst).Nodup)
    {f f' : Individual} (hrel : femRel mid mrat f f') (hFI : FInv dir f) :
    FInv dir f' := by
  rcases hrel with rfl | rfl
  · exact hFI
  · intro p hp hcand
    obtain ⟨p1, p2⟩ := p
    simp only [likedFem] at hcand ⊢
    have hmid : mid = p1 := by simpa using hcand
    subst hmid
    rw [key_unique hnd hmem hp]

/-- Candidate provenance under `femRel`: a new pointer points at the
scanning male. -/
theorem femRel_cand {mid : String} {mrat : List ℚ} {f f' : Individual}
    (hrel : femRel mid mrat f f') {x : String} (hx : f'.candidate = some x) :
    f.candidate = some x ∨ x = mid := by
  rcases hrel with rfl | rfl
  · exact Or.inl hx
  · right
    simp only [likedFem] at hx
    exact (Option.some.injEq _ _ ▸ hx.symm : x = mid)

theorem femRel_map_identity {mid : String} {mrat : List ℚ} :
    ∀ {fs fs' : List Individual}, List.Forall₂ (femRel mid mrat) fs fs' →
    fs'.map Individual.identity = fs.map Individual.identity := by
  intro fs fs' h
  induction h with
  | nil => rfl
  | cons hab hrest ih => simp [ih, (femRel_fStar hab).1.1]

theorem mStar_map_identity :
    ∀ {ms ms' : List Individual}, List.Forall₂ mStar ms ms' →
    ms'.map Individual.identity = ms.map Individual.identity := by
  intro ms ms' h
  induction h with
  | nil => rfl
  | cons hab hrest ih => simp [ih, hab.1.1]

theorem fStar_map_identity :
    ∀ {fs fs' : List Individual}, List.Forall₂ fStar fs fs' →
    fs'.map Individual.identity = fs.map Individual.identity := by
  intro fs fs' h
  induction h with
  | nil => rfl
  | cons hab hrest ih => simp [ih, hab.1.1]

theorem dirOf_eq : ∀ {ms ms' : List Individual}, List.Forall₂ mStar ms ms' →
    dirOf ms' = dirOf ms := by
  intro ms ms' h
  induction h with
  | nil => rfl
  | cons hab hrest ih =>
    simp only [dirOf, List.map_cons] at ih ⊢
    rw [ih, hab.1.1, hab.1.2.2.2]

theorem dirOf_keys (ms : List Individual) :
    (dirOf ms).map Prod.fst = ms.map Individual.identity := by
  simp [dirOf, List.map_map, Function.comp_def]

/-- Conjunction of two pointwise relations. -/
theorem forall2_and {α : Type} {r1 r2 : α → α → Prop} :
    ∀ {l1 l2 : List α}, List.Forall₂ r1 l1 l2 → List.Forall₂ r2 l1 l2 →
    List.Forall₂ (fun a b => r1 a b ∧ r2 a b) l1 l2 := by
  intro l1 l2 h1 h2
  induction h1 with
  | nil => exact List.Forall₂.nil
  | cons hab hrest ih =>
    cases h2 with
    | cons hab2 hrest2 => exact List.Forall₂.cons ⟨hab, hab2⟩ (ih hrest2)

/-- Invariant preservation along one male's scan: new blacklist entries come
only from the scanned females, and afterwards no female blacklisted by this
male holds him as her candidate. -/
theorem proposeScan_inv (dir : List (String × List ℚ)) :
    ∀ (fs : List Individual) (m m' : Individual) (fs' : List Individual),
    proposeScan m fs = Except.ok (m', fs') →
    (m.identity, m.ratings) ∈ dir →
    (fs.map Individual.identity).Nodup →
    (∀ f ∈ fs, FInv dir f) →
    (∀ f ∈ fs, NPB m f) →
    (∀ x ∈ m'.blacklist, x ∈ m.blacklist ∨ x ∈ fs.map Individual.identity) ∧
    (∀ f' ∈ fs', NPB m' f') := by
  intro fs
  induction fs with
  | nil =>
    intro m m' fs' h hdir hfnd hFI hNPB
    simp only [proposeScan] at h
    obtain ⟨h1, h2⟩ := Prod.mk.injEq _ _ _ _ ▸ (Except.ok.injEq _ _ ▸ h)
    subst h1; subst h2
    exact ⟨fun x hx => Or.inl hx, fun f' hf' => absurd hf' (List.not_mem_nil _)⟩
  | cons f rest ih =>
    intro m m' fs' h hdir hfnd hFI hNPB
    have hfnd' : (rest.map Individual.identity).Nodup :=
      (List.nodup_cons.mp (by simpa using hfnd)).2
    have hfid : f.identity ∉ rest.map Individual.identity :=
      (List.nodup_cons.mp (by simpa using hfnd)).1
    simp only [proposeScan] at h
    split at h
    · -- skip: the female is blacklisted and passed through unchanged
      next hcont =>
      split at h
      · exact absurd h (by simp)
      · next p heq =>
        obtain ⟨h1, h2⟩ := Prod.mk.injEq _ _ _ _ ▸ (Except.ok.injEq _ _ ▸ h)
        subst h1; subst h2
        have heq' : proposeScan m rest = Except.ok (p.1, p.2) := by rw [heq]
        obtain ⟨hprov, hnpb⟩ := ih m p.1 p.2 heq' hdir hfnd'
          (fun g hg => hFI g (List.mem_cons_of_mem _ hg))
          (fun g hg => hNPB g (List.mem_cons_of_mem _ hg))
        obtain ⟨hmst, _⟩ := proposeScan_ok rest m p.1 p.2 heq'
        refine ⟨fun x hx => ?_, fun f' hf' => ?_⟩
        · rcases hprov x hx with hx1 | hx2
          · exact Or.inl hx1
          · rw [List.map_cons]
            exact Or.inr (List.mem_cons_of_mem _ hx2)
        · rcases List.mem_cons.mp hf' with rfl | hf2
          · intro hbl hcand
            rcases hprov _ hbl with hx1 | hx2
            · rw [hmst.1.1] at hcand
              exact hNPB f' (List.mem_cons_self _ _) hx1 hcand
            · exact hfid hx2
          · exact hnpb f' hf2
    · -- the pair is scored
      next hcont =>
      split at h
      · exact absurd h (by simp)
      · next sc hsc =>
        split at h
        · next cs hcs =>
          split at h
          · -- rejection: push the female's identity, continue scanning
            next hlt =>
            split at h
            · exact absurd h (by simp)
            · next p heq =>
              obtain ⟨h1, h2⟩ := Prod.mk.injEq _ _ _ _ ▸ (Except.ok.injEq _ _ ▸ h)
              subst h1; subst h2
              have heq' : proposeScan
                  { m with blacklist := m.blacklist ++ [f.identity] } rest =
                  Except.ok (p.1, p.2) := by rw [heq]
              have hNPB' : ∀ g ∈ rest,
                  NPB { m with blacklist := m.blacklist ++ [f.identity] } g := by
                intro g hg hbl hcand
                rcases List.mem_append.mp hbl with hb1 | hb2
                · exact hNPB g (List.mem_cons_of_mem _ hg) hb1 hcand
                · apply hfid
                  have hgid : g.identity = f.identity := by simpa using hb2
                  rw [← hgid]
                  exact List.mem_map_of_mem Individual.identity hg
              obtain ⟨hprov, hnpb⟩ := ih _ p.1 p.2 heq' hdir hfnd'
                (fun g hg => hFI g (List.mem_cons_of_mem _ hg)) hNPB'
              obtain ⟨hmst, _⟩ := proposeScan_ok rest _ p.1 p.2 heq'
              have hkey : f.candidate ≠ some m.identity := by
                intro hcand
                have hsc2 := hFI f (List.mem_cons_self _ _) (m.identity, m.ratings) hdir hcand
                rw [hcs] at hsc2
                have hcseq : cs = dot f.preference_weights m.ratings := by simpa using hsc2
                obtain ⟨hdot, _⟩ := score_ok_eq hsc
                rw [hcseq, ← hdot] at hlt
                exact lt_irrefl _ hlt
              refine ⟨fun x hx => ?_, fun f' hf' => ?_⟩
              · rcases hprov x hx with hx1 | hx2
                · rcases List.mem_append.mp hx1 with hb1 | hb2
                  · exact Or.inl hb1
                  · rw [List.map_cons]
                    have hxid : x = f.identity := by simpa using hb2
                    exact Or.inr (hxid ▸ List.mem_cons_self _ _)
                · rw [List.map_cons]
                  exact Or.inr (List.mem_cons_of_mem _ hx2)
              · rcases List.mem_cons.mp hf' with rfl | hf2
                · intro hbl hcand
                  rw [hmst.1.1] at hcand
                  exact hkey hcand
                · exact hnpb f' hf2
          · -- acceptance with displacement: scan stops, blacklist unchanged
            next hge =>
            obtain ⟨h1, h2⟩ := Prod.mk.injEq _ _ _ _ ▸ (Except.ok.injEq _ _ ▸ h)
            subst h1; subst h2
            refine ⟨fun x hx => Or.inl hx, fun f' hf' => ?_⟩
            rcases List.mem_cons.mp hf' with rfl | hf2
            · intro hbl _
              exact hcont (by simpa [Sample.liked] using hbl)
            · intro hbl hcand
              exact hNPB f' (List.mem_cons_of_mem _ hf2) hbl hcand
        · -- acceptance with no previous candidate: scan stops
          next hcs =>
          obtain ⟨h1, h2⟩ := Prod.mk.injEq _ _ _ _ ▸ (Except.ok.injEq _ _ ▸ h)
          subst h1; subst h2
          refine ⟨fun x hx => Or.inl hx, fun f' hf' => ?_⟩
          rcases List.mem_cons.mp hf' with rfl | hf2
          · intro hbl _
            exact hcont (by simpa [Sample.liked] using hbl)
          · intro hbl hcand
            exact hNPB f' (List.mem_cons_of_mem _ hf2) hbl hcand

/-- Invariant preservation along one full round (`matchScan`): score
consistency holds for every female afterwards, no male's blacklist entry
points back at him, and every new candidate pointer names a processed male. -/
theorem matchScan_inv (dir : List (String × List ℚ)) (hnd : (dir.map Prod.fst).Nodup) :
    ∀ (ms fs : List Individual) (ms' fs' : List Individual),
    matchScan ms fs = Except.ok (ms', fs') →
    (∀ m ∈ ms, (m.identity, m.ratings) ∈ dir) →
    ((ms.map Individual.identity).Nodup) →
    ((fs.map Individual.identity).Nodup) →
    (∀ f ∈ fs, FInv dir f) →
    (∀ m ∈ ms, ∀ f ∈ fs, NPB m f) →
    (∀ f' ∈ fs', FInv dir f') ∧
    (∀ m' ∈ ms', ∀ f' ∈ fs', NPB m' f') ∧
    List.Forall₂ (fun f f' => ∀ x, f'.candidate = some x →
      f.candidate = some x ∨ x ∈ ms.map Individual.identity) fs fs' := by
  intro ms
  induction ms with
  | nil =>
    intro fs ms' fs' h hdir hmnd hfnd hFI hNPB
    simp only [matchScan] at h
    obtain ⟨h1, h2⟩ := Prod.mk.injEq _ _ _ _ ▸ (Except.ok.injEq _ _ ▸ h)
    subst h1; subst h2
    exact ⟨hFI, fun m' hm' => absurd hm' (List.not_mem_nil _),
      List.forall₂_same.mpr fun f _ x hx => Or.inl hx⟩
  | cons m rest ih =>
    intro fs ms' fs' h hdir hmnd hfnd hFI hNPB
    have hmnd' : (rest.map Individual.identity).Nodup :=
      (List.nodup_cons.mp (by simpa using hmnd)).2
    have hmid : m.identity ∉ rest.map Individual.identity :=
      (List.nodup_cons.mp (by simpa using hmnd)).1
    simp only [matchScan] at h
    split at h
    · exact absurd h (by simp)
    · next p heq =>
      split at h
      · exact absurd h (by simp)
      · next q heq2 =>
        obtain ⟨h1, h2⟩ := Prod.mk.injEq _ _ _ _ ▸ (Except.ok.injEq _ _ ▸ h)
        subst h1; subst h2
        have heq' : proposeScan m fs = Except.ok (p.1, p.2) := by rw [heq]
        have heq2' : matchScan rest p.2 = Except.ok (q.1, q.2) := by rw [heq2]
        obtain ⟨hmst, hfem⟩ := proposeScan_ok fs m p.1 p.2 heq'
        have hdm : (m.identity, m.ratings) ∈ dir := hdir m (List.mem_cons_self _ _)
        obtain ⟨hprov1, hnpb1⟩ := proposeScan_inv dir fs m p.1 p.2 heq' hdm hfnd hFI
          (fun f hf => hNPB m (List.mem_cons_self _ _) f hf)
        -- facts about the intermediate female list p.2
        have hfnd1 : (p.2.map Individual.identity).Nodup := by
          rw [femRel_map_identity hfem]; exact hfnd
        have hFI1 : ∀ f1 ∈ p.2, FInv dir f1 := by
          intro f1 hf1
          obtain ⟨a, ha, hr⟩ := forall2_mem_right hfem hf1
          exact femRel_FInv hdm hnd hr (hFI a ha)
        have hNPB1 : ∀ mr ∈ rest, ∀ f1 ∈ p.2, NPB mr f1 := by
          intro mr hmr f1 hf1 hbl hcand
          obtain ⟨a, ha, hr⟩ := forall2_mem_right hfem hf1
          rcases femRel_cand hr hcand with ha2 | ha2
          · apply hNPB mr (List.mem_cons_of_mem _ hmr) a ha
            · rw [← (femRel_fStar hr).1.1]; exact hbl
            · exact ha2
          · apply hmid
            rw [← ha2]
            exact List.mem_map_of_mem Individual.identity hmr
        obtain ⟨hFI2, hnpb2, hprov2⟩ := ih p.2 q.1 q.2 heq2'
          (fun mr hmr => hdir mr (List.mem_cons_of_mem _ hmr)) hmnd' hfnd1 hFI1 hNPB1
        obtain ⟨hmst2, hfst2⟩ := matchScan_ok rest p.2 q.1 q.2 heq2'
        refine ⟨hFI2, ?_, ?_⟩
        · -- NPB for the head male and all later-round females, plus the rest
          intro m' hm' f'' hf''
          rcases List.mem_cons.mp hm' with rfl | hm2
          · -- the processed head male against the final females
            intro hbl hcand
            obtain ⟨f1, hf1, hcomb⟩ := forall2_mem_right (forall2_and hprov2 hfst2) hf''
            rw [hcomb.2.1.1] at hbl
            rcases hcomb.1 _ hcand with hc1 | hc1
            · exact hnpb1 f1 hf1 hbl hc1
            · rw [hmst.1.1] at hc1
              exact hmid hc1
          · exact hnpb2 m' hm2 f'' hf''
        · -- provenance composition
          refine @forall2_comp Individual (femRel m.identity m.ratings)
            (fun f f' => ∀ x, f'.candidate = some x →
              f.candidate = some x ∨ x ∈ rest.map Individual.identity)
            (fun f f' => ∀ x, f'.candidate = some x →
              f.candidate = some x ∨ x ∈ (m :: rest).map Individual.identity)
            ?_ _ _ _ hfem hprov2
          intro a b c h1 h2 x hx
          rcases h2 x hx with hb | hb
          · rcases femRel_cand h1 hb with ha | ha
            · exact Or.inl ha
            · rw [List.map_cons, ha]
              exact Or.inr (List.mem_cons_self _ _)
          · rw [List.map_cons]
            exact Or.inr (List.mem_cons_of_mem _ hb)

/-- One round of `match_making` preserves well-formedness. -/
theorem wf_match_making {s s' : Sample} (hwf : WfS s)
    (h : s.match_making = Except.ok s') : WfS s' := by
  obtain ⟨hmn, hfn, hFI, hNPB⟩ := hwf
  have hnd : ((dirOf s.male_population).map Prod.fst).Nodup := by
    rw [dirOf_keys]; exact hmn
  unfold Sample.match_making at h
  split at h
  · exact absurd h (by simp)
  · next p heq =>
    have heq' : matchScan s.male_population s.female_population = Except.ok (p.1, p.2) := by
      rw [heq]
    obtain ⟨hFI', hNPB', _⟩ := matchScan_inv (dirOf s.male_population) hnd
      s.male_population s.female_population p.1 p.2 heq'
      (fun m hm => List.mem_map_of_mem _ hm) hmn hfn hFI hNPB
    obtain ⟨hm2, hf2⟩ := matchScan_ok _ _ p.1 p.2 heq'
    have hs' : s' = { male_population := p.1, female_population := p.2 } := by
      have := Except.ok.injEq (α := Sample) _ _ ▸ h
      exact this.symm
    subst hs'
    refine ⟨?_, ?_, ?_, ?_⟩
    · show (p.1.map Individual.identity).Nodup
      rw [mStar_map_identity hm2]; exact hmn
    · show (p.2.map Individual.identity).Nodup
      rw [fStar_map_identity hf2]; exact hfn
    · show ∀ f ∈ p.2, FInv (dirOf p.1) f
      rw [dirOf_eq hm2]
      exact hFI'
    · exact hNPB'

/-- A fresh population is well-formed. -/
theorem fresh_wf {s : Sample} (h : FreshS s) : WfS s := by
  obtain ⟨h1, h2, h3⟩ := h
  refine ⟨h1, h2, ?_, ?_⟩
  · intro f hf p hp hc
    have hcn := (h3 f (List.mem_append_right _ hf)).2.1
    rw [hcn] at hc
    exact absurd hc (by simp)
  · intro m hm f hf hbl
    have hbn := (h3 m (List.mem_append_left _ hm)).1
    rw [hbn] at hbl
    exact absurd hbl (List.not_mem_nil _)

/-- Well-formedness is preserved by any number of rounds. -/
theorem wf_runRounds : ∀ (n : ℕ) (s s' : Sample), WfS s →
    runRounds n s = Except.ok s' → WfS s' := by
  intro n
  induction n with
  | zero =>
    intro s s' hwf h
    cases Except.ok.injEq _ _ ▸ h
    exact hwf
  | succ k ih =>
    intro s s' hwf h
    simp only [runRounds] at h
    split at h
    · exact absurd h (by simp)
    · next t heq =>
      exact ih t s' (wf_match_making hwf heq) h

/-- **C3.** Starting from a fresh population, once a responder's identity
has been appended to a proposer's blacklist it is never removed (later
blacklists extend earlier ones), and from that point on the pair is never
each other's candidate — in particular the pair never becomes matched in
any later round of the same execution. -/
theorem claim3_blacklist_permanent (s t u : Sample) (hfresh : FreshS s) (k n : ℕ)
    (hkt : runRounds k s = Except.ok t) (hnu : runRounds n t = Except.ok u)
    (i j : ℕ) (hi : i < t.male_population.length) (hj : j < t.female_population.length)
    (hb : (t.female_population.getD j default).identity ∈
      (t.male_population.getD i default).blacklist) :
    (∃ extra, (u.male_population.getD i default).blacklist =
      (t.male_population.getD i default).blacklist ++ extra) ∧
    ((t.female_population.getD j default).identity ∈
      (u.male_population.getD i default).blacklist) ∧
    ¬ ((u.male_population.getD i default).candidate =
        some (u.female_population.getD j default).identity ∧
       (u.female_population.getD j default).candidate =
        some (u.male_population.getD i default).identity) := by
  have hwft : WfS t := wf_runRounds k s t (fresh_wf hfresh) hkt
  have hwfu : WfS u := wf_runRounds n t u hwft hnu
  obtain ⟨hm, hf⟩ := runRounds_ok n t u hnu
  have hmi := forall2_getD mStar_refl hm i
  have hfj := forall2_getD fStar_refl hf j
  obtain ⟨extra, hext⟩ := hmi.2.1
  have hmem : (t.female_population.getD j default).identity ∈
      (u.male_population.getD i default).blacklist := by
    rw [hext]
    exact List.mem_append_left _ hb
  refine ⟨⟨extra, hext⟩, hmem, ?_⟩
  rintro ⟨hmc, hfc⟩
  have hiu : i < u.male_population.length := hm.length_eq ▸ hi
  have hju : j < u.female_population.length := hf.length_eq ▸ hj
  have hmu : u.male_population.getD i default ∈ u.male_population := by
    rw [List.getD_eq_getElem _ _ hiu]
    exact List.getElem_mem hiu
  have hfu : u.female_population.getD j default ∈ u.female_population := by
    rw [List.getD_eq_getElem _ _ hju]
    exact List.getElem_mem hju
  have hnpb := hwfu.2.2.2 _ hmu _ hfu
  apply hnpb ?_ hfc
  rw [hfj.1.1]
  exact hmem

theorem claim3_witness :
    FreshS exBlacklistSample ∧
    runRounds 1 exBlacklistSample = Except.ok exBlacklistAfter1 ∧
    runRounds 1 exBlacklistAfter1 = Except.ok exBlacklistAfter1 ∧
    (exBlacklistAfter1.female_population.getD 0 default).identity ∈
      (exBlacklistAfter1.male_population.getD 1 default).blacklist ∧
    ¬ ((exBlacklistAfter1.male_population.getD 1 default).candidate =
        some (exBlacklistAfter1.female_population.getD 0 default).identity ∧
       (exBlacklistAfter1.female_population.getD 0 default).candidate =
        some (exBlacklistAfter1.male_population.getD 1 default).identity) := by
  have hfresh : FreshS exBlacklistSample := by
    unfold FreshS
    refine ⟨by decide, by decide, by decide⟩
  have hkt : runRounds 1 exBlacklistSample = Except.ok exBlacklistAfter1 := by
    norm_num [runRounds, Sample.match_making, matchScan, proposeScan, Individual.score,
      Sample.liked, exBlacklistSample, exBlacklistAfter1, mkMale, mkFemale]
  have hnu : runRounds 1 exBlacklistAfter1 = Except.ok exBlacklistAfter1 := by
    norm_num [runRounds, Sample.match_making, matchScan, proposeScan, Individual.score,
      Sample.liked, exBlacklistAfter1, mkMale, mkFemale]
  have hb : (exBlacklistAfter1.female_population.getD 0 default).identity ∈
      (exBlacklistAfter1.male_population.getD 1 default).blacklist := by decide
  obtain ⟨_, h2, h3⟩ := claim3_blacklist_permanent exBlacklistSample exBlacklistAfter1
    exBlacklistAfter1 hfresh 1 1 hkt hnu 1 0 (by decide) (by decide) hb
  exact ⟨hfresh, hkt, hnu, h2, h3⟩

end DatingSim
